import Mathlib

/-!
Shallow embedding of the ingestion pipeline of `agenda-membres-cm`
(`generate_ical_files.py` and the day-grouping sort of
`generate_daily_summaries.py`), together with theorems settling the
frozen claims about its specification.

Python strings are modelled as Lean `String` / `List Char`.  The Python
`str.strip` and the regex class `\s` are modelled over the six ASCII
whitespace characters (space, tab, newline, carriage return, vertical
tab, form feed); the source data is ASCII/Latin-1 text where this claim
coincides with the Unicode notion Python uses.
-/

namespace ACM

/-- The six ASCII whitespace characters stripped by Python `str.strip()`
and matched by the regex class `\s`. -/
def isPySpace (c : Char) : Bool :=
  c = ' ' || c = '\t' || c = '\n' || c = '\r' || c = Char.ofNat 11 || c = Char.ofNat 12

/-- Drop the longest suffix of `l` whose characters all satisfy `p`. -/
def dropEndWhile (p : Char → Bool) (l : List Char) : List Char :=
  (l.reverse.dropWhile p).reverse

/-- Strip characters satisfying `p` from both ends (Python `str.strip(chars)`). -/
def stripEnds (p : Char → Bool) (l : List Char) : List Char :=
  dropEndWhile p (l.dropWhile p)

/-- Python `str.strip()` (no argument): strip whitespace from both ends. -/
def pyStrip (s : String) : String :=
  String.mk (stripEnds isPySpace s.data)

/-- Python `str.strip` called with space and double quote: strip those characters
from both ends (used on CSV fields and continuation lines). -/
def stripSpaceQuote (s : String) : String :=
  String.mk (stripEnds (fun c => c = ' ' || c = '"') s.data)

/-- `leadsWith pat l` holds when `pat` is an initial segment of `l`. -/
def leadsWith : List Char → List Char → Bool
  | [], _ => true
  | _ :: _, [] => false
  | p :: ps, c :: cs => p = c && leadsWith ps cs

/-- Python `str.replace(pat, rep)` for a non-empty pattern: replace all
non-overlapping occurrences, scanning left to right.  (The sources only
replace non-empty literal tags, so the empty-pattern corner of the Python
`replace` is irrelevant; an empty pattern is treated as matching nowhere.) -/
def replaceAllAux (pat rep : List Char) : List Char → Nat → List Char
  | [], _ => []
  | _ :: rest, Nat.succ skip => replaceAllAux pat rep rest skip
  | c :: rest, 0 =>
    if !pat.isEmpty && leadsWith pat (c :: rest) then
      rep ++ replaceAllAux pat rep rest (pat.length - 1)
    else
      c :: replaceAllAux pat rep rest 0

/-- Entry point of `replaceAllAux`: a positive second argument skips the
remainder of an already-matched occurrence, so scanning starts at 0. -/
def replaceAll (pat rep l : List Char) : List Char :=
  replaceAllAux pat rep l 0

/-- String wrapper for `replaceAll`. -/
def strReplace (s pat rep : String) : String :=
  String.mk (replaceAll pat.data rep.data s.data)

/-- Python `content.split` at newlines: split on every newline character,
keeping empty pieces. -/
def splitNL : List Char → List (List Char)
  | [] => [[]]
  | c :: rest =>
    if c = '\n' then [] :: splitNL rest
    else
      match splitNL rest with
      | s :: ss => (c :: s) :: ss
      | [] => [[c]]

/-- Python newline `join` of a list of lines. -/
def joinLines : List String → String
  | [] => ""
  | [s] => s
  | s :: rest => s ++ "\n" ++ joinLines rest

/-! ### TextCleaner (`clean_html`, generate_ical_files.py lines 23-45) -/

/-- Representative table of named HTML character references, modelling
Python `html.unescape` restricted to entities occurring in the data.
`html.unescape` is Python standard-library code external to this
repository; no claim depends on the extent of the table. -/
def entityTable : List (List Char × Char) :=
  [("amp;".data, '&'), ("lt;".data, '<'), ("gt;".data, '>'),
   ("quot;".data, '"'), ("nbsp;".data, ' '),
   ("eacute;".data, 'é'), ("egrave;".data, 'è'), ("agrave;".data, 'à'),
   ("ccedil;".data, 'ç'), ("#39;".data, Char.ofNat 39)]

/-- Try to read one entity reference (after a `&`) from the head of `l`;
returns the decoded character and the number of characters consumed. -/
def matchEntity : List (List Char × Char) → List Char → Option (Char × Nat)
  | [], _ => none
  | (pat, r) :: tbl, l =>
    if leadsWith pat l then some (r, pat.length) else matchEntity tbl l

/-- Model of Python `html.unescape` over `entityTable`; a positive skip
counter passes over the remainder of a decoded entity. -/
def htmlUnescapeAux : List Char → Nat → List Char
  | [], _ => []
  | _ :: rest, Nat.succ skip => htmlUnescapeAux rest skip
  | c :: rest, 0 =>
    if c = '&' then
      match matchEntity entityTable rest with
      | some (r, n) => r :: htmlUnescapeAux rest n
      | none => c :: htmlUnescapeAux rest 0
    else c :: htmlUnescapeAux rest 0

/-- Entry point of `htmlUnescapeAux`. -/
def htmlUnescape (l : List Char) : List Char :=
  htmlUnescapeAux l 0

/-- The regex substitution removing tag-like substrings (pattern
`<[^>]+>`, replaced by nothing): remove angle-bracketed runs with a
non-empty body of non-`>` characters; a positive skip counter passes over
the remainder of a matched tag. -/
def stripTagsAux : List Char → Nat → List Char
  | [], _ => []
  | _ :: rest, Nat.succ skip => stripTagsAux rest skip
  | c :: rest, 0 =>
    if c = '<' then
      let body := rest.takeWhile (fun d => !(d = '>'))
      if body ≠ [] ∧ rest.drop body.length ≠ [] then
        stripTagsAux rest (body.length + 1)
      else
        c :: stripTagsAux rest 0
    else c :: stripTagsAux rest 0

/-- Entry point of `stripTagsAux`. -/
def stripTags (l : List Char) : List Char :=
  stripTagsAux l 0

/-- The regex substitution collapsing blank runs (pattern newline,
whitespace-run, newline, replaced by one newline) with greedy matching: at each
newline whose following maximal whitespace run contains another newline,
the whole match (up to the last newline of the run) is replaced by a
single newline.  `w2` below is the part of the run after its last
newline. -/
def subBlankAux : List Char → Nat → List Char
  | [], _ => []
  | _ :: rest, Nat.succ skip => subBlankAux rest skip
  | c :: rest, 0 =>
    if c = '\n' then
      let w := rest.takeWhile isPySpace
      if w.contains '\n' then
        let w2 := (w.reverse.takeWhile (fun d => !(d = '\n'))).reverse
        '\n' :: subBlankAux rest (w.length - w2.length)
      else
        c :: subBlankAux rest 0
    else c :: subBlankAux rest 0

/-- Entry point of `subBlankAux`: a positive skip counter passes over the
matched blank run, resuming right after its last newline. -/
def subBlank (l : List Char) : List Char :=
  subBlankAux l 0

/-- `clean_html` (generate_ical_files.py lines 23-45): decode entities,
strip a fixed tag set (paragraph/line-break tags become newlines), remove
remaining tags, collapse blank-line runs, and strip the ends. -/
def clean_html (text : String) : String :=
  if text = "" then ""
  else
    let t := String.mk (htmlUnescape text.data)
    let t := strReplace t "<p>" ""
    let t := strReplace t "</p>" "\n"
    let t := strReplace t "<br>" "\n"
    let t := strReplace t "<br/>" "\n"
    let t := strReplace t "<br />" "\n"
    let t := strReplace t "<sup>" ""
    let t := strReplace t "</sup>" ""
    let t := strReplace t "<strong>" ""
    let t := strReplace t "</strong>" ""
    let t := String.mk (stripTags t.data)
    let t := String.mk (subBlank t.data)
    pyStrip t

/-- The function `clean_html` as called on a possibly-absent value: the
guard `if not text` in Python maps `None` to the empty string. -/
def cleanHtmlOpt : Option String → String
  | none => ""
  | some s => clean_html s

/-! ### TemporalParser (`parse_datetime`, generate_ical_files.py lines 47-77) -/

/-- A calendar date (proleptic Gregorian, as `datetime.date`). -/
structure CalDate where
  year : Nat
  month : Nat
  day : Nat
deriving DecidableEq, Repr

/-- A time of day (hour, minute), as `datetime.time` with zero seconds. -/
structure Tod where
  hour : Nat
  minute : Nat
deriving DecidableEq, Repr

/-- A naive `datetime.datetime` value; the date-only result of
`parse_datetime` is the date at midnight, exactly as in Python. -/
structure NaiveDT where
  date : CalDate
  time : Tod
deriving DecidableEq, Repr

/-- Numeric value of an ASCII digit character. -/
def digitVal (c : Char) : Nat := c.toNat - '0'.toNat

/-- The anchored regex match of the date pattern (two digits, dash, two
digits, dash, four digits): match the pattern at the start
of the string (trailing text ignored) and return (day, month, year). -/
def matchDateStart : List Char → Option (Nat × Nat × Nat)
  | d1 :: d2 :: '-' :: m1 :: m2 :: '-' :: y1 :: y2 :: y3 :: y4 :: _ =>
    if d1.isDigit && d2.isDigit && m1.isDigit && m2.isDigit &&
       y1.isDigit && y2.isDigit && y3.isDigit && y4.isDigit then
      some (digitVal d1 * 10 + digitVal d2,
            digitVal m1 * 10 + digitVal m2,
            ((digitVal y1 * 10 + digitVal y2) * 10 + digitVal y3) * 10 + digitVal y4)
    else none
  | _ => none

/-- Gregorian leap-year test, as used by `datetime`. -/
def isLeap (y : Nat) : Bool := y % 4 = 0 && (y % 100 ≠ 0 || y % 400 = 0)

/-- Number of days in a month, as validated by `datetime.strptime` with
the day-month-year format. -/
def daysInMonth (y m : Nat) : Nat :=
  if m = 2 then (if isLeap y then 29 else 28)
  else if m = 4 || m = 6 || m = 9 || m = 11 then 30
  else 31

/-- The call `datetime.strptime` with format day-month-year succeeds
exactly when the numeric
components denote a real calendar date with year ≥ 1 (`MINYEAR`). -/
def validDate (d m y : Nat) : Bool :=
  1 ≤ m && m ≤ 12 && 1 ≤ d && d ≤ daysInMonth y m && 1 ≤ y

/-- Lines 64-67 of `parse_datetime`: replace every `h` by `:` and default
a missing minute component to `:00`. -/
def normTime (l : List Char) : List Char :=
  let t := replaceAll "h".data ":".data l
  if t.contains ':' then t else t ++ ":00".data

/-- The shapes on which `datetime.strptime` with format
hour-colon-minute can succeed, together with the values it reads: the
whole string must be `D:DD` or `DD:DD` (strptime requires the entire
string to be consumed, so no trailing character is tolerated); range
checking of the values happens at the use site. -/
def matchHM : List Char → Option (Nat × Nat)
  | [a, b, c, d] =>
    if a.isDigit && b = ':' && c.isDigit && d.isDigit then
      some (digitVal a, digitVal c * 10 + digitVal d)
    else none
  | [a, b, c, d, e] =>
    if a.isDigit && b.isDigit && c = ':' && d.isDigit && e.isDigit then
      some (digitVal a * 10 + digitVal b, digitVal d * 10 + digitVal e)
    else none
  | _ => none

/-- The regex check of line 69 (one or two digits, colon, two digits,
anchored at both ends).  In Python the dollar anchor matches at the end
of the string or just before a newline that ends the string, so the
admitted shapes are `D:DD` and `DD:DD`, each optionally followed by one
final newline. -/
def regexHM : List Char → Bool
  | [a, b, c, d] => a.isDigit && b = ':' && c.isDigit && d.isDigit
  | [a, b, c, d, e] =>
    (a.isDigit && b.isDigit && c = ':' && d.isDigit && e.isDigit) ||
    (a.isDigit && b = ':' && c.isDigit && d.isDigit && e = '\n')
  | [a, b, c, d, e, f] =>
    a.isDigit && b.isDigit && c = ':' && d.isDigit && e.isDigit && f = '\n'
  | _ => false

/-- `parse_datetime` (generate_ical_files.py lines 47-77).  The date part
must match `\d{2}-\d{2}-\d{4}` at the start of the string and denote a
valid calendar date, else `None`.  A non-empty time string is normalized
by `normTime`; if the result fails the `^\d{1,2}:\d{2}$` pattern
(`regexHM`) the date-only value is returned; otherwise the normalized
string goes to `strptime` with the hour-colon-minute format, which
succeeds exactly on a full-string `D:DD`/`DD:DD` with in-range values
(`matchHM` plus the range test) and whose `ValueError` — out-of-range
values, or the trailing newline tolerated by the regex but not by
`strptime` — is caught by the enclosing handler, which returns `None`. -/
def parse_datetime (date_str time_str : String) : Option NaiveDT :=
  if date_str = "" then none
  else
    match matchDateStart date_str.data with
    | none => none
    | some (d, m, y) =>
      if validDate d m y then
        let date : CalDate := ⟨y, m, d⟩
        if time_str ≠ "" then
          if regexHM (normTime time_str.data) = false then some ⟨date, ⟨0, 0⟩⟩
          else
            match matchHM (normTime time_str.data) with
            | some (h, mi) =>
              if h ≤ 23 && mi ≤ 59 then some ⟨date, ⟨h, mi⟩⟩ else none
            | none => none
        else some ⟨date, ⟨0, 0⟩⟩
      else none

/-! ### DialectParser (`parse_csv_content`, generate_ical_files.py lines 79-142) -/

/-- A logical row: a Python `dict` from header name to field value,
modelled as an insertion-ordered association list with unique keys. -/
def Row : Type := List (String × String)

instance : DecidableEq Row := inferInstanceAs (DecidableEq (List (String × String)))

/-- Python `dict[k] = v`: replace the value at an existing key in place,
else append the binding. -/
def dictInsert : Row → String → String → Row
  | [], k, v => [(k, v)]
  | (k0, v0) :: rest, k, v =>
    if k0 = k then (k0, v) :: rest else (k0, v0) :: dictInsert rest k v

/-- Python `dict(zip(headers, fields))`: pairs up to the shorter list,
later duplicate keys overwriting earlier ones. -/
def dictZip (headers fields : List String) : Row :=
  (List.zip headers fields).foldl (fun r kv => dictInsert r kv.1 kv.2) []

/-- Python `row.get` with default empty string. -/
def rowGet (r : Row) (k : String) : String :=
  match r.find? (fun p => p.1 = k) with
  | some p => p.2
  | none => ""

/-- Field splitting of one logical-row line (lines 100-115): iterate the
characters, toggling `in_quotes` on every `"`, closing a field at every
semicolon seen outside quotes; each closed field is trimmed of
surrounding space and quote characters and
cleaned, and a non-empty final accumulator yields a last field. -/
def splitFieldsAux : List Char → List String → List Char → Bool → List String
  | [], fields, current, _ =>
    if current ≠ [] then fields ++ [clean_html (stripSpaceQuote (String.mk current))]
    else fields
  | c :: rest, fields, current, inq =>
    if c = '"' then splitFieldsAux rest fields current (!inq)
    else if c = ';' && !inq then
      splitFieldsAux rest (fields ++ [clean_html (stripSpaceQuote (String.mk current))]) [] inq
    else splitFieldsAux rest fields (current ++ [c]) inq

/-- Split a logical-row line into its cleaned fields. -/
def splitFields (line : String) : List String :=
  splitFieldsAux line.data [] [] false

/-- Pad a field list with empty strings up to the header count
(the `while len(fields) < len(headers)` loop, lines 123-124). -/
def padTo (fields : List String) (n : Nat) : List String :=
  fields ++ List.replicate (n - fields.length) ""

/-- The row-boundary heuristic (lines 91-95): a stripped line opens a new
logical row iff it contains at least two quote characters and at least
one semicolon. -/
def isRowStart (line : String) : Bool :=
  2 ≤ line.data.count '"' && line.data.contains ';'

/-- Parser state: accumulated rows, the currently open row, and the
header list once seen. -/
structure PState where
  rows : List Row
  current : Option Row
  headers : Option (List String)
deriving DecidableEq

/-- Initial parser state. -/
def initPState : PState := ⟨[], none, none⟩

/-- The value stored into `Participants` by a continuation line
(lines 132-136): the cleaned line, joined by a newline onto the stripped
existing content when that is non-empty. -/
def appendParticipants (old cleanedLine : String) : String :=
  if pyStrip old ≠ "" then pyStrip old ++ "\n" ++ cleanedLine else cleanedLine

/-- One iteration of the loop of `parse_csv_content` (lines 85-136) on a
physical line. -/
def processLine (s : PState) (rawLine : String) : PState :=
  let line := pyStrip rawLine
  if line = "" then s
  else if isRowStart line then
    let rows' := s.rows ++ s.current.toList
    let fields := splitFields line
    match s.headers with
    | none => { rows := rows', current := s.current, headers := some fields }
    | some hs =>
      { rows := rows', current := some (dictZip hs (padTo fields hs.length)),
        headers := s.headers }
  else
    match s.current with
    | none => s
    | some r =>
      { s with current := some (dictInsert r "Participants"
          (appendParticipants (rowGet r "Participants")
            (clean_html (stripSpaceQuote line)))) }

/-- `parse_csv_content` (lines 79-142): fold the line loop over the
newline-split content and flush a still-open row at the end. -/
def parse_csv_content (content : String) : Option (List String) × List Row :=
  let final := ((splitNL content.data).map String.mk).foldl processLine initPState
  (final.headers, final.rows ++ final.current.toList)

/-! ### CalendarEmitter (`convert_csv_to_ical`, generate_ical_files.py lines 144-230) -/

/-- The event start as stored on the icalendar `Event`: a naive datetime
localized to a named timezone (`TIMEZONE.localize`), or a bare date for
an all-day event. -/
inductive DtStart where
  | timed (dt : NaiveDT) (tz : String)
  | allday (d : CalDate)
deriving DecidableEq, Repr

/-- The icalendar `Event` properties that `convert_csv_to_ical` can set.
`duration` counts hours (the code only ever adds `timedelta(hours=1)`);
`dtend` is never assigned by the code and models the absence of an
explicit end time. -/
structure Event where
  summary : String
  dtstart : DtStart
  duration : Option Nat := none
  dtend : Option NaiveDT := none
  location : Option String := none
  description : String := ""
deriving DecidableEq, Repr

/-- The activity-type key used at line 163 (mojibake as in the source,
apostrophe spelled via its code point). -/
def typeKey : String := "Type d" ++ String.mk [Char.ofNat 39] ++ "activitÃ©"

/-- The event body (lines 202-214): a `Type:` line, a `Description:`
line, then a `Participants:` header followed by one `- `-bulleted line
per non-empty stripped participant line. -/
def fullDescription (activity_type description participants : String) : List String :=
  (if activity_type ≠ "" then ["Type: " ++ activity_type] else []) ++
  (if description ≠ "" then ["Description: " ++ description] else []) ++
  (let plines := ((splitNL participants.data).map (fun l => pyStrip (String.mk l))).filter
      (fun l => l ≠ "")
   if plines ≠ [] then "Participants:" :: plines.map (fun p => "- " ++ p) else [])

/-- The per-row body of the loop of `convert_csv_to_ical`
(lines 159-216): extract and strip the six fields, skip the row when the
date, the summary or the parsed start is missing, and otherwise build the
event — timed rows get the localized start and a fixed 1-hour duration,
time-less rows get the bare date. -/
def processRow (row : Row) : Option Event :=
  let activity_type := pyStrip (rowGet row typeKey)
  let description := pyStrip (rowGet row "Description")
  let location := pyStrip (rowGet row "Lieu")
  let date := pyStrip (rowGet row "Date")
  let time := pyStrip (rowGet row "Heure")
  let participants := pyStrip (rowGet row "Participants")
  if date = "" then none
  else
    let summary := if description ≠ "" then description else activity_type
    if summary = "" then none
    else
      match parse_datetime date time with
      | none => none
      | some start_dt =>
        some { summary := summary
             , dtstart :=
                 if time ≠ "" then DtStart.timed start_dt "America/Montreal"
                 else DtStart.allday start_dt.date
             , duration := if time ≠ "" then some 1 else none
             , dtend := none
             , location := if location ≠ "" then some location else none
             , description := joinLines (fullDescription activity_type description participants) }

/-- The event list produced by `convert_csv_to_ical` for the content of
one source (the file reading and calendar envelope are outside this model). -/
def convertEvents (content : String) : List Event :=
  (parse_csv_content content).2.filterMap processRow

/-! ### Day-grouping sort (`generate_daily_summaries.py` lines 59-107) -/

/-- An activity record as built by `read_agenda_file`
(generate_daily_summaries.py lines 45-54). -/
structure DayActivity where
  typ : String
  description : String
  location : String
  date : CalDate
  time : Option Tod
  participants : String
  minister : String
  ministerStatus : String
deriving DecidableEq, Repr

/-- Minutes since midnight; `datetime.time` values compare by (hour,
minute) lexicographically, which this measure realizes. -/
def todVal (t : Tod) : Nat := t.hour * 60 + t.minute

/-- The ordering induced by the Python sort key, the pair (time is
absent, time) (lines 68 and 94): timed
before untimed, timed ascending by time of day; `None` values are only
ever compared for equality. -/
def actLe (a b : DayActivity) : Bool :=
  match a.time, b.time with
  | none, none => true
  | none, some _ => false
  | some _, none => true
  | some t1, some t2 => todVal t1 ≤ todVal t2

/-- `actLe` as a decidable relation for `List.insertionSort`. -/
def actR (a b : DayActivity) : Prop := actLe a b = true

instance : DecidableRel actR := fun a b => instDecidableEqBool (actLe a b) true

/-- The Python `list.sort` with a key is a stable sort by that key; a stable
sort by a total preorder is computed by insertion sort. -/
def sortDay (l : List DayActivity) : List DayActivity :=
  List.insertionSort actR l

/-- The sort key itself, used to state stability: activities are "equal"
for the sort exactly when their keys coincide. -/
def sortKey (a : DayActivity) : Bool × Nat :=
  (a.time.isNone, match a.time with | none => 0 | some t => todVal t)

/-! ### Observers and spec-side definitions used by the claims -/

/-- Observer for the blank-run claim: the list starts with a newline
followed, after whitespace only, by another newline. -/
def startsBlank : List Char → Bool
  | [] => false
  | c :: rest => c = '\n' && (rest.takeWhile isPySpace).contains '\n'

/-- Observer: some suffix of the list starts a blank run, i.e. the text
contains two newlines separated only by whitespace. -/
def hasBlank : List Char → Bool
  | [] => false
  | c :: rest => startsBlank (c :: rest) || hasBlank rest

/-- Spec-side splitter for the field-splitting claim, following the
wording of the specification: walk the characters with an inside-quotes
flag toggled at each quote character, cut a new segment at each semicolon
seen outside quotes, and leave quote characters out of the segments. -/
def specSegs : List Char → Bool → List (List Char)
  | [], _ => [[]]
  | c :: rest, inq =>
    if c = '"' then specSegs rest (!inq)
    else if c = ';' && !inq then [] :: specSegs rest inq
    else
      match specSegs rest inq with
      | s :: ss => (c :: s) :: ss
      | [] => [[c]]

/-- Finish raw segments into fields: a trailing empty segment yields no
field, and every field is trimmed of surrounding space and quote
characters and cleaned. -/
def finalizeSegs (segs : List (List Char)) : List String :=
  (if segs.getLast? = some [] then segs.dropLast else segs).map
    (fun seg => clean_html (stripSpaceQuote (String.mk seg)))

/-- Spec-side description of the field splitting of one logical-row
line. -/
def specFields (line : String) : List String :=
  finalizeSegs (specSegs line.data false)

/-- Glue a pending accumulator onto the first raw segment (used to relate
the source fold to `specSegs`). -/
def consHead (cur : List Char) : List (List Char) → List (List Char)
  | [] => [cur]
  | s :: ss => (cur ++ s) :: ss

/-- A row as built by `convert_csv_to_ical` from the six column values
(the headers of the observed sources, in their order). -/
def mkRow (tp de lo ds ts pa : String) : Row :=
  [(typeKey, tp), ("Description", de), ("Lieu", lo),
   ("Date", ds), ("Heure", ts), ("Participants", pa)]

/-- Activity with no time, used in the concrete sort example. -/
def actExNone : DayActivity :=
  ⟨"t1", "d1", "l1", ⟨2024, 1, 1⟩, none, "", "M1", "active"⟩

/-- Activity at 09:00, used in the concrete sort example. -/
def actExNine : DayActivity :=
  ⟨"t2", "d2", "l2", ⟨2024, 1, 1⟩, some ⟨9, 0⟩, "", "M2", "active"⟩

/-- Activity at 08:00, used in the concrete sort example. -/
def actExEight : DayActivity :=
  ⟨"t3", "d3", "l3", ⟨2024, 1, 1⟩, some ⟨8, 0⟩, "", "M3", "active"⟩

end ACM

namespace ACM

/-! ### Helper lemmas -/

/-- A successful date-only parse pins down the whole shape of
`parse_datetime` on that date string. -/
theorem parse_datetime_dateonly_shape (ds : String) (dt : NaiveDT)
    (hd : parse_datetime ds "" = some dt) :
    ds ≠ "" ∧ ∃ d m y, matchDateStart ds.data = some (d, m, y) ∧
      validDate d m y = true ∧ dt = ⟨⟨y, m, d⟩, ⟨0, 0⟩⟩ := by
  unfold parse_datetime at hd
  by_cases hds : ds = ""
  · rw [if_pos hds] at hd; exact absurd hd (by simp)
  · rw [if_neg hds] at hd
    refine ⟨hds, ?_⟩
    cases hmp : matchDateStart ds.data with
    | none => rw [hmp] at hd; exact absurd hd (by simp)
    | some t =>
      obtain ⟨d, m, y⟩ := t
      rw [hmp] at hd
      dsimp only at hd
      refine ⟨d, m, y, rfl, ?_⟩
      by_cases hv : validDate d m y
      · rw [if_pos hv] at hd
        simp only [ne_eq, not_true_eq_false, if_false, reduceIte] at hd
        exact ⟨hv, (Option.some.injEq _ _ ▸ hd).symm⟩
      · rw [if_neg hv] at hd; exact absurd hd (by simp)

/-- Behaviour of `parse_datetime` on a non-empty time string, given that
the date part parses: the result is determined by the normalized time
string alone. -/
theorem parse_datetime_with_time (ds ts : String) (dt : NaiveDT)
    (hd : parse_datetime ds "" = some dt) (hts : ts ≠ "") :
    parse_datetime ds ts =
      (if regexHM (normTime ts.data) = false then some dt
       else
         match matchHM (normTime ts.data) with
         | some (h, mi) =>
           if h ≤ 23 && mi ≤ 59 then some ⟨dt.date, ⟨h, mi⟩⟩ else none
         | none => none) := by
  obtain ⟨hds, d, m, y, hmp, hv, hdt⟩ := parse_datetime_dateonly_shape ds dt hd
  subst hdt
  unfold parse_datetime
  rw [if_neg hds, hmp]
  dsimp only
  rw [if_pos hv, if_pos hts]

/-- A `strptime`-acceptable shape also passes the regex check. -/
theorem regexHM_of_matchHM : ∀ (l : List Char) (h mi : Nat),
    matchHM l = some (h, mi) → regexHM l = true
  | [a, b, c, d], h, mi, hm => by
    unfold matchHM at hm
    unfold regexHM
    dsimp only at hm ⊢
    by_cases hc : (a.isDigit && b = ':' && c.isDigit && d.isDigit) = true
    · exact hc
    · rw [if_neg hc] at hm
      exact absurd hm (by simp)
  | [a, b, c, d, e], h, mi, hm => by
    unfold matchHM at hm
    unfold regexHM
    dsimp only at hm ⊢
    by_cases hc : (a.isDigit && b.isDigit && c = ':' && d.isDigit && e.isDigit) = true
    · rw [hc]
      rfl
    · rw [if_neg hc] at hm
      exact absurd hm (by simp)
  | [], _, _, hm => by simp [matchHM] at hm
  | [_], _, _, hm => by simp [matchHM] at hm
  | [_, _], _, _, hm => by simp [matchHM] at hm
  | [_, _, _], _, _, hm => by simp [matchHM] at hm
  | _ :: _ :: _ :: _ :: _ :: _ :: _ :: _, _, _, hm => by simp [matchHM] at hm

/-- On a string that does not end in a newline, the regex check succeeds
only on `strptime`-acceptable shapes: the extra forms the dollar anchor
tolerates all end in a newline. -/
theorem matchHM_of_regexHM_no_nl : ∀ l : List Char, regexHM l = true →
    l.getLast? ≠ some '\n' → ∃ h mi, matchHM l = some (h, mi)
  | [a, b, c, d], hr, _ => by
    unfold regexHM at hr
    dsimp only at hr
    exact ⟨_, _, by unfold matchHM; dsimp only; rw [if_pos hr]⟩
  | [a, b, c, d, e], hr, hnl => by
    unfold regexHM at hr
    dsimp only at hr
    rcases Bool.or_eq_true_iff.mp hr with hc | hc
    · exact ⟨_, _, by unfold matchHM; dsimp only; rw [if_pos hc]⟩
    · exfalso
      have he : e = '\n' := by
        rcases Bool.and_eq_true_iff.mp hc with ⟨-, h2⟩
        simpa using h2
      exact hnl (by simp [List.getLast?, he])
  | [a, b, c, d, e, f], hr, hnl => by
    unfold regexHM at hr
    dsimp only at hr
    exfalso
    have hf : f = '\n' := by
      rcases Bool.and_eq_true_iff.mp hr with ⟨-, h2⟩
      simpa using h2
    exact hnl (by simp [List.getLast?, hf])
  | [], hr, _ => by simp [regexHM] at hr
  | [_], hr, _ => by simp [regexHM] at hr
  | [_, _], hr, _ => by simp [regexHM] at hr
  | [_, _, _], hr, _ => by simp [regexHM] at hr
  | _ :: _ :: _ :: _ :: _ :: _ :: _ :: _ :: _, hr, _ => by simp [regexHM] at hr

/-- The head of a `dropWhile` result fails the predicate. -/
theorem dropWhile_head_false (p : Char → Bool) :
    ∀ (l : List Char) (d : Char) (t : List Char), l.dropWhile p = d :: t → p d = false := by
  intro l
  induction l with
  | nil => intro d t h; exact absurd h (by simp)
  | cons c r ih =>
    intro d t h
    rw [List.dropWhile_cons] at h
    by_cases hc : p c = true
    · rw [if_pos hc] at h; exact ih d t h
    · rw [if_neg hc] at h
      cases h
      exact Bool.eq_false_iff.mpr hc

/-- Replacing a single-character pattern by a single character is a map
over the characters. -/
theorem replaceAll_single (p0 r0 : Char) : ∀ l : List Char,
    replaceAll [p0] [r0] l = l.map (fun c => if c = p0 then r0 else c) := by
  intro l
  induction l with
  | nil => rfl
  | cons c rest ih =>
    show (if !([p0] : List Char).isEmpty && leadsWith [p0] (c :: rest) then
        [r0] ++ replaceAllAux [p0] [r0] rest (([p0] : List Char).length - 1)
      else c :: replaceAllAux [p0] [r0] rest 0) = _
    by_cases hc : c = p0
    · rw [if_pos (by simp [leadsWith, hc])]
      show r0 :: replaceAll [p0] [r0] rest = _
      rw [ih]
      simp [hc]
    · rw [if_neg (by simp [leadsWith]; intro h; exact absurd h.symm hc)]
      show c :: replaceAll [p0] [r0] rest = _
      rw [ih]
      simp [hc]

/-- `getLast?` commutes with `map`. -/
theorem getLastQ_map (f : Char → Char) (l : List Char) :
    (l.map f).getLast? = l.getLast?.map f := by
  rw [← List.head?_reverse, ← List.map_reverse, List.head?_map, List.head?_reverse]

/-- The last character of a stripped list does not satisfy the stripping
predicate. -/
theorem stripEnds_getLast_not (p : Char → Bool) (x : List Char) (c : Char)
    (h : (stripEnds p x).getLast? = some c) : p c = false := by
  unfold stripEnds dropEndWhile at h
  rw [List.getLast?_reverse] at h
  cases hv : ((x.dropWhile p).reverse).dropWhile p with
  | nil => rw [hv] at h; exact absurd h (by simp)
  | cons d t =>
    rw [hv] at h
    have hd : p d = false := dropWhile_head_false p _ d t hv
    have : d = c := by simpa using h
    rwa [this] at hd

/-- The normalization of a stripped time string never ends in a newline:
either `:00` was appended, or the last character is the image under the
h-to-colon replacement of the stripped string's last character, which is
not whitespace. -/
theorem normTime_pyStrip_getLast_ne_nl (ts : String) :
    (normTime (pyStrip ts).data).getLast? ≠ some '\n' := by
  show (normTime (stripEnds isPySpace ts.data)).getLast? ≠ some '\n'
  unfold normTime
  by_cases hcol : (replaceAll "h".data ":".data (stripEnds isPySpace ts.data)).contains ':' = true
  · rw [if_pos hcol]
    have hrepl := replaceAll_single 'h' ':' (stripEnds isPySpace ts.data)
    rw [show ("h" : String).data = ['h'] from rfl, show (":" : String).data = [':'] from rfl,
      hrepl, getLastQ_map]
    cases hlast : (stripEnds isPySpace ts.data).getLast? with
    | none => simp
    | some c =>
      have hc : isPySpace c = false := stripEnds_getLast_not isPySpace ts.data c hlast
      have hcn : ¬ c = '\n' := by
        intro hceq
        rw [hceq] at hc
        exact absurd hc (by decide)
      simp only [Option.map_some']
      intro hx
      have := Option.some.injEq _ _ ▸ hx
      by_cases hch : c = 'h'
      · rw [if_pos hch] at this
        exact absurd this.symm (by decide)
      · rw [if_neg hch] at this
        exact hcn this
  · rw [if_neg hcol]
    rw [show (":00" : String).data = [':', '0', '0'] from rfl]
    rw [show (replaceAll "h".data ":".data (stripEnds isPySpace ts.data)) ++ [':', '0', '0'] =
      ((replaceAll "h".data ":".data (stripEnds isPySpace ts.data)) ++ [':', '0']) ++ ['0']
      from by rw [List.append_assoc]; rfl]
    rw [List.getLast?_concat]
    decide

/-! ### Claim C1 -/

/-- **C1, counterexample.**  The claim says every non-empty time string
that does not denote a valid hour:minute time makes `parse_datetime` fall
back to the date-only value.  The time string `"25h00"` is non-empty and
denotes no valid time, the date `"01-01-2024"` is valid (its date-only
parse succeeds), yet `parse_datetime` returns `none`, discarding the
date: the normalized `"25:00"` passes the shape regex and then
`strptime` raises `ValueError`, which the catch-all handler turns into
`None`. -/
theorem C1_counterexample :
    parse_datetime "01-01-2024" "" = some ⟨⟨2024, 1, 1⟩, ⟨0, 0⟩⟩ ∧
    ("25h00" : String) ≠ "" ∧
    parse_datetime "01-01-2024" "25h00" = none := by
  refine ⟨by decide, by decide, by decide⟩

/-- **C1, amended.**  For every date string whose date-only parse
succeeds and every non-empty time string: if the normalized time fails
the hour:minute regex (whose dollar anchor also tolerates one trailing
newline), `parse_datetime` returns the date-only value; if the regex
matches but the values are out of range, or the regex matched only by
virtue of the trailing newline that `strptime` rejects, `parse_datetime`
returns `none` instead. -/
theorem C1_time_fallback (ds ts : String) (dt : NaiveDT)
    (hd : parse_datetime ds "" = some dt) (hts : ts ≠ "") :
    (regexHM (normTime ts.data) = false → parse_datetime ds ts = some dt) ∧
    (∀ h mi, matchHM (normTime ts.data) = some (h, mi) →
      (h ≤ 23 && mi ≤ 59) = false → parse_datetime ds ts = none) ∧
    (regexHM (normTime ts.data) = true → matchHM (normTime ts.data) = none →
      parse_datetime ds ts = none) := by
  refine ⟨?_, ?_, ?_⟩
  · intro hfail
    rw [parse_datetime_with_time ds ts dt hd hts, if_pos hfail]
  · intro h mi hm hbad
    have hr : regexHM (normTime ts.data) = true := regexHM_of_matchHM _ h mi hm
    rw [parse_datetime_with_time ds ts dt hd hts, if_neg (by simp [hr]), hm]
    simp [hbad]
  · intro hr hm
    rw [parse_datetime_with_time ds ts dt hd hts, if_neg (by simp [hr]), hm]

/-- **C1, witness.**  The amended theorem applied at the valid date
`"05-03-2024"` and the shape-failing time `"abc"`. -/
theorem C1_time_fallback_witness :
    parse_datetime "05-03-2024" "" = some ⟨⟨2024, 3, 5⟩, ⟨0, 0⟩⟩ ∧
    ("abc" : String) ≠ "" ∧
    regexHM (normTime ("abc" : String).data) = false ∧
    parse_datetime "05-03-2024" "abc" = some ⟨⟨2024, 3, 5⟩, ⟨0, 0⟩⟩ :=
  ⟨by decide, by decide, by decide,
    (C1_time_fallback "05-03-2024" "abc" ⟨⟨2024, 3, 5⟩, ⟨0, 0⟩⟩
      (by decide) (by decide)).1 (by decide)⟩

/-! ### Claim C10 -/

/-- **C10.**  The parser is a total function by construction
(`parse_csv_content : String → Option (List String) × List Row`); the
empty source yields `(none, [])`, and so does every source none of whose
stripped physical lines passes the row-start heuristic — an unparseable
source is observationally identical to an empty one. -/
theorem C10_total_degradation :
    parse_csv_content "" = (none, []) ∧
    ∀ content : String,
      (∀ raw ∈ (splitNL content.data).map String.mk,
          isRowStart (pyStrip raw) = false) →
      parse_csv_content content = (none, []) := by
  constructor
  · decide
  · intro content hall
    have key : ∀ lines : List String,
        (∀ raw ∈ lines, isRowStart (pyStrip raw) = false) →
        lines.foldl processLine initPState = initPState := by
      intro lines
      induction lines with
      | nil => intro _; rfl
      | cons a t ih =>
        intro hl
        have ha := hl a (by simp)
        have step : processLine initPState a = initPState := by
          unfold processLine
          by_cases hb : pyStrip a = ""
          · rw [if_pos hb]
          · rw [if_neg hb, if_neg (by simp [ha])]
            rfl
        rw [List.foldl_cons, step]
        exact ih (fun r hr => hl r (by simp [hr]))
    unfold parse_csv_content
    rw [key _ hall]
    rfl

/-- **C10, witness.**  A source of quote-less garbage lines parses to the
same observable result as the empty source. -/
theorem C10_total_degradation_witness :
    (∀ raw ∈ (splitNL ("garbage line\nno quotes here" : String).data).map String.mk,
        isRowStart (pyStrip raw) = false) ∧
    parse_csv_content "garbage line\nno quotes here" = (none, []) :=
  ⟨by decide, C10_total_degradation.2 "garbage line\nno quotes here" (by decide)⟩

/-! ### Claim C2 -/

/-- **C2.**  For every state and non-blank stripped line: when the line
has at least two quote characters and a semicolon, it starts a new
logical row (the previously open row, if any, is closed out into the row
list); otherwise it is a continuation — discarded when no row is open,
and otherwise appended, after cleaning, onto the Participants field of
the open row, joined by a newline onto non-empty existing content. -/
theorem C2_row_boundary (s : PState) (raw : String)
    (hne : pyStrip raw ≠ "") :
    ((2 ≤ (pyStrip raw).data.count '"' ∧ (pyStrip raw).data.contains ';' = true) →
        (processLine s raw).rows = s.rows ++ s.current.toList) ∧
    (¬(2 ≤ (pyStrip raw).data.count '"' ∧ (pyStrip raw).data.contains ';' = true) →
        (s.current = none → processLine s raw = s) ∧
        (∀ r, s.current = some r →
          processLine s raw = { s with current := some (dictInsert r "Participants"
            (appendParticipants (rowGet r "Participants")
              (clean_html (stripSpaceQuote (pyStrip raw))))) })) := by
  have hiff : isRowStart (pyStrip raw) = true ↔
      (2 ≤ (pyStrip raw).data.count '"' ∧ (pyStrip raw).data.contains ';' = true) := by
    simp [isRowStart]
  constructor
  · intro hc
    unfold processLine
    rw [if_neg hne, if_pos (hiff.mpr hc)]
    cases s.headers <;> rfl
  · intro hc
    have hns : isRowStart (pyStrip raw) = false := by
      cases hv : isRowStart (pyStrip raw)
      · rfl
      · exact absurd (hiff.mp hv) hc
    constructor
    · intro hcur
      unfold processLine
      rw [if_neg hne, if_neg (by simp [hns]), hcur]
    · intro r hcur
      unfold processLine
      rw [if_neg hne, if_neg (by simp [hns]), hcur]

/-- **C2, witness.**  The theorem applied to a state with an open row and
the quote-less continuation line `"Jane Doe"` (one quote pair but no
semicolon would also continue; this line has neither). -/
theorem C2_row_boundary_witness :
    pyStrip "Jane Doe" ≠ "" ∧
    processLine ⟨[], some [("Date", "01-01-2024")], some ["Date"]⟩ "Jane Doe" =
      ⟨[], some [("Date", "01-01-2024"), ("Participants", "Jane Doe")], some ["Date"]⟩ := by
  refine ⟨by decide, ?_⟩
  have h := (C2_row_boundary ⟨[], some [("Date", "01-01-2024")], some ["Date"]⟩
    "Jane Doe" (by decide)).2 (by decide) |>.2 [("Date", "01-01-2024")] rfl
  rw [h]
  decide

/-! ### Claim C5 -/

/-- The zip of a header list against a field list ignores fields beyond
the header count. -/
theorem zip_take_header_length {α β : Type} :
    ∀ (hs : List α) (fs : List β), hs.zip (fs.take hs.length) = hs.zip fs := by
  intro hs
  induction hs with
  | nil => intro fs; rfl
  | cons h t ih =>
    intro fs
    cases fs with
    | nil => rfl
    | cons f ft => simpa using ih ft

/-- **C5.**  The first logical row becomes the header list and produces
no data row; a later logical row becomes the open row as the
dictionary-zip of the headers against the padded field list; padding
tops the field list up with empty strings exactly to the header count;
and the zip silently drops fields beyond the header count. -/
theorem C5_header_pad_truncate :
    (∀ (s : PState) (raw : String), s.headers = none →
        pyStrip raw ≠ "" → isRowStart (pyStrip raw) = true →
        processLine s raw = { rows := s.rows ++ s.current.toList, current := s.current,
                              headers := some (splitFields (pyStrip raw)) }) ∧
    (∀ (s : PState) (hs : List String) (raw : String), s.headers = some hs →
        pyStrip raw ≠ "" → isRowStart (pyStrip raw) = true →
        processLine s raw = { rows := s.rows ++ s.current.toList,
                              current := some (dictZip hs (padTo (splitFields (pyStrip raw)) hs.length)),
                              headers := some hs }) ∧
    (∀ (fs : List String) (n : Nat), fs.length ≤ n → (padTo fs n).length = n) ∧
    (∀ (hs fs : List String), dictZip hs fs = dictZip hs (fs.take hs.length)) := by
  refine ⟨?_, ?_, ?_, ?_⟩
  · intro s raw hh hne hrs
    unfold processLine
    rw [if_neg hne, if_pos hrs, hh]
  · intro s hs raw hh hne hrs
    unfold processLine
    rw [if_neg hne, if_pos hrs, hh]
  · intro fs n hlen
    simp [padTo]
    omega
  · intro hs fs
    unfold dictZip
    rw [zip_take_header_length]

/-- **C5, witness.**  The data-row conjunct applied to a state with a
three-header schema and a one-field row: the row is padded to three
fields; a separate row with four fields against two headers shows the
zip truncation. -/
theorem C5_header_pad_truncate_witness :
    processLine ⟨[], none, some ["A", "B", "C"]⟩ "\"x\";" =
      ⟨[], some [("A", "x"), ("B", ""), ("C", "")], some ["A", "B", "C"]⟩ ∧
    dictZip ["A", "B"] ["1", "2", "3", "4"] = dictZip ["A", "B"] ["1", "2"] := by
  constructor
  · have h := C5_header_pad_truncate.2.1 ⟨[], none, some ["A", "B", "C"]⟩
      ["A", "B", "C"] "\"x\";" rfl (by decide) (by decide)
    rw [h]
    decide
  · have h := C5_header_pad_truncate.2.2.2 ["A", "B"] ["1", "2", "3", "4"]
    rw [h]
    rfl

/-! ### Claim C8 -/

/-- **C8.**  Every emitted event carries as summary the stripped
description when non-empty and otherwise the stripped activity type; a
row where both are empty yields no event at all. -/
theorem C8_summary_fallback :
    (∀ (row : Row) (e : Event), processRow row = some e →
        e.summary = (if pyStrip (rowGet row "Description") ≠ ""
                     then pyStrip (rowGet row "Description")
                     else pyStrip (rowGet row typeKey))) ∧
    (∀ row : Row, pyStrip (rowGet row "Description") = "" →
        pyStrip (rowGet row typeKey) = "" → processRow row = none) := by
  constructor
  · intro row e he
    unfold processRow at he
    dsimp only at he
    by_cases hd : pyStrip (rowGet row "Date") = ""
    · rw [if_pos hd] at he; exact absurd he (by simp)
    · rw [if_neg hd] at he
      by_cases hs : (if pyStrip (rowGet row "Description") ≠ ""
          then pyStrip (rowGet row "Description") else pyStrip (rowGet row typeKey)) = ""
      · rw [if_pos hs] at he; exact absurd he (by simp)
      · rw [if_neg hs] at he
        cases hp : parse_datetime (pyStrip (rowGet row "Date")) (pyStrip (rowGet row "Heure")) with
        | none => rw [hp] at he; exact absurd he (by simp)
        | some dt =>
          rw [hp] at he
          have := (Option.some.injEq _ _ ▸ he)
          rw [← this]
  · intro row h1 h2
    unfold processRow
    dsimp only
    have hsum : (if pyStrip (rowGet row "Description") ≠ ""
        then pyStrip (rowGet row "Description") else pyStrip (rowGet row typeKey)) = "" := by
      rw [h1, h2]; simp
    by_cases hd : pyStrip (rowGet row "Date") = ""
    · rw [if_pos hd]
    · rw [if_neg hd, if_pos hsum]

/-- **C8, witness.**  The summary conjunct applied to a concrete emitted
event whose description is empty: the summary falls back to the activity
type, and a row with both fields empty is skipped. -/
theorem C8_summary_fallback_witness :
    processRow (mkRow "T" "" "" "01-01-2024" "" "") =
      some { summary := "T", dtstart := DtStart.allday ⟨2024, 1, 1⟩,
             description := "Type: T" } ∧
    ({ summary := "T", dtstart := DtStart.allday ⟨2024, 1, 1⟩,
       description := "Type: T" } : Event).summary =
      (if pyStrip (rowGet (mkRow "T" "" "" "01-01-2024" "" "") "Description") ≠ ""
       then pyStrip (rowGet (mkRow "T" "" "" "01-01-2024" "" "") "Description")
       else pyStrip (rowGet (mkRow "T" "" "" "01-01-2024" "" "") typeKey)) ∧
    processRow (mkRow "" "" "X" "01-01-2024" "" "") = none :=
  ⟨by decide,
   C8_summary_fallback.1 (mkRow "T" "" "" "01-01-2024" "" "") _ (by decide),
   C8_summary_fallback.2 (mkRow "" "" "X" "01-01-2024" "" "") (by decide) (by decide)⟩

/-! ### Claims C3 and C4 -/

/-- Reading the six columns of a constructed row back out. -/
theorem rowGet_mkRow (tp de lo ds ts pa : String) :
    rowGet (mkRow tp de lo ds ts pa) typeKey = tp ∧
    rowGet (mkRow tp de lo ds ts pa) "Description" = de ∧
    rowGet (mkRow tp de lo ds ts pa) "Lieu" = lo ∧
    rowGet (mkRow tp de lo ds ts pa) "Date" = ds ∧
    rowGet (mkRow tp de lo ds ts pa) "Heure" = ts ∧
    rowGet (mkRow tp de lo ds ts pa) "Participants" = pa :=
  ⟨rfl, rfl, rfl, rfl, rfl, rfl⟩

/-- A successful date-only parse forces the date string to be non-empty. -/
theorem parse_datetime_ne_empty (ds : String) (dt : NaiveDT)
    (hd : parse_datetime ds "" = some dt) : ds ≠ "" :=
  (parse_datetime_dateonly_shape ds dt hd).1

/-- **C3.**  For an emitted row with a valid date and a valid time, the
event start is the date combined with the parsed hour and minute,
localized to the fixed America/Montreal timezone, with a fixed 1-hour
duration and no explicit end; for an emitted row with an empty time, the
event carries only the bare date, with no duration. -/
theorem C3_timed_localized_allday_bare (tp de lo ds ts pa : String) (dtd : NaiveDT) :
    (∀ h mi, parse_datetime (pyStrip ds) "" = some dtd →
        pyStrip ts ≠ "" →
        matchHM (normTime (pyStrip ts).data) = some (h, mi) →
        (h ≤ 23 && mi ≤ 59) = true →
        ¬(pyStrip de = "" ∧ pyStrip tp = "") →
        ∃ e, processRow (mkRow tp de lo ds ts pa) = some e ∧
          e.dtstart = DtStart.timed ⟨dtd.date, ⟨h, mi⟩⟩ "America/Montreal" ∧
          e.duration = some 1 ∧ e.dtend = none) ∧
    (parse_datetime (pyStrip ds) "" = some dtd →
        pyStrip ts = "" →
        ¬(pyStrip de = "" ∧ pyStrip tp = "") →
        ∃ e, processRow (mkRow tp de lo ds ts pa) = some e ∧
          e.dtstart = DtStart.allday dtd.date ∧
          e.duration = none ∧ e.dtend = none) := by
  obtain ⟨hg1, hg2, hg3, hg4, hg5, hg6⟩ := rowGet_mkRow tp de lo ds ts pa
  constructor
  · intro h mi hd hts hm hval hsum
    have hds := parse_datetime_ne_empty _ _ hd
    have hr : regexHM (normTime (pyStrip ts).data) = true := regexHM_of_matchHM _ h mi hm
    have hparse : parse_datetime (pyStrip ds) (pyStrip ts) = some ⟨dtd.date, ⟨h, mi⟩⟩ := by
      rw [parse_datetime_with_time _ _ _ hd hts, if_neg (by simp [hr]), hm]
      simp [hval]
    unfold processRow
    rw [hg1, hg2, hg3, hg4, hg5, hg6]
    dsimp only
    rw [if_neg hds]
    have hsum2 : ¬((if pyStrip de ≠ "" then pyStrip de else pyStrip tp) = "") := by
      by_cases hde : pyStrip de = ""
      · rw [if_neg (by simpa using hde)]
        exact fun htp => hsum ⟨hde, htp⟩
      · rw [if_pos (by simpa using hde)]
        exact hde
    rw [if_neg hsum2, hparse]
    refine ⟨_, rfl, ?_, ?_, rfl⟩
    · dsimp only
      rw [if_pos hts]
    · dsimp only
      rw [if_pos hts]
  · intro hd hts hsum
    have hds := parse_datetime_ne_empty _ _ hd
    unfold processRow
    rw [hg1, hg2, hg3, hg4, hg5, hg6]
    dsimp only
    rw [if_neg hds]
    have hsum2 : ¬((if pyStrip de ≠ "" then pyStrip de else pyStrip tp) = "") := by
      by_cases hde : pyStrip de = ""
      · rw [if_neg (by simpa using hde)]
        exact fun htp => hsum ⟨hde, htp⟩
      · rw [if_pos (by simpa using hde)]
        exact hde
    rw [if_neg hsum2, hts, hd]
    refine ⟨_, rfl, ?_, ?_, rfl⟩
    · dsimp only
      rw [if_neg (by simp)]
    · dsimp only
      rw [if_neg (by simp)]

/-- **C3, witness.**  The timed conjunct at description `"Réunion"`,
date `"05-03-2024"` and time `"14h30"`, and the all-day conjunct at the
same date with no time. -/
theorem C3_timed_localized_allday_bare_witness :
    (∃ e, processRow (mkRow "" "Réunion" "" "05-03-2024" "14h30" "") = some e ∧
      e.dtstart = DtStart.timed ⟨⟨2024, 3, 5⟩, ⟨14, 30⟩⟩ "America/Montreal" ∧
      e.duration = some 1 ∧ e.dtend = none) ∧
    (∃ e, processRow (mkRow "" "Réunion" "" "05-03-2024" "" "") = some e ∧
      e.dtstart = DtStart.allday ⟨2024, 3, 5⟩ ∧
      e.duration = none ∧ e.dtend = none) :=
  ⟨(C3_timed_localized_allday_bare "" "Réunion" "" "05-03-2024" "14h30" ""
      ⟨⟨2024, 3, 5⟩, ⟨0, 0⟩⟩).1 14 30 (by decide) (by decide) (by decide) (by decide)
      (by decide),
   (C3_timed_localized_allday_bare "" "Réunion" "" "05-03-2024" "" ""
      ⟨⟨2024, 3, 5⟩, ⟨0, 0⟩⟩).2 (by decide) (by decide) (by decide)⟩

/-- **C4.**  A row with a valid date and a non-empty time string whose
normalization fails the hour:minute pattern is still emitted on the timed
branch — `convert_csv_to_ical` tests the raw time string, not whether a
time was parsed: the event start is the date at midnight localized to the
timezone, with a 1-hour duration, and the event is not all-day. -/
theorem C4_unparsed_time_timed_midnight (tp de lo ds ts pa : String) (dtd : NaiveDT)
    (hd : parse_datetime (pyStrip ds) "" = some dtd)
    (hts : pyStrip ts ≠ "")
    (hm : matchHM (normTime (pyStrip ts).data) = none)
    (hsum : ¬(pyStrip de = "" ∧ pyStrip tp = "")) :
    ∃ e, processRow (mkRow tp de lo ds ts pa) = some e ∧
      e.dtstart = DtStart.timed ⟨dtd.date, ⟨0, 0⟩⟩ "America/Montreal" ∧
      e.duration = some 1 ∧
      (∀ d, e.dtstart ≠ DtStart.allday d) := by
  obtain ⟨hg1, hg2, hg3, hg4, hg5, hg6⟩ := rowGet_mkRow tp de lo ds ts pa
  have hds := parse_datetime_ne_empty _ _ hd
  have hmid : dtd = ⟨dtd.date, ⟨0, 0⟩⟩ := by
    obtain ⟨-, d, m, y, -, -, hdt⟩ := parse_datetime_dateonly_shape _ _ hd
    rw [hdt]
  have hrf : regexHM (normTime (pyStrip ts).data) = false := by
    cases hx : regexHM (normTime (pyStrip ts).data) with
    | false => rfl
    | true =>
      obtain ⟨h, mi, hsome⟩ := matchHM_of_regexHM_no_nl _ hx (normTime_pyStrip_getLast_ne_nl ts)
      rw [hsome] at hm
      exact absurd hm (by simp)
  have hparse : parse_datetime (pyStrip ds) (pyStrip ts) = some ⟨dtd.date, ⟨0, 0⟩⟩ := by
    rw [parse_datetime_with_time _ _ _ hd hts, if_pos hrf, ← hmid]
  unfold processRow
  rw [hg1, hg2, hg3, hg4, hg5, hg6]
  dsimp only
  rw [if_neg hds]
  have hsum2 : ¬((if pyStrip de ≠ "" then pyStrip de else pyStrip tp) = "") := by
    by_cases hde : pyStrip de = ""
    · rw [if_neg (by simpa using hde)]
      exact fun htp => hsum ⟨hde, htp⟩
    · rw [if_pos (by simpa using hde)]
      exact hde
  rw [if_neg hsum2, hparse]
  refine ⟨_, rfl, ?_, ?_, ?_⟩
  · dsimp only
    rw [if_pos hts]
  · dsimp only
    rw [if_pos hts]
  · intro d
    dsimp only
    rw [if_pos hts]
    simp

/-- **C4, witness.**  The theorem at the valid date `"05-03-2024"` with
the unparseable time `"abc"`. -/
theorem C4_unparsed_time_timed_midnight_witness :
    parse_datetime (pyStrip "05-03-2024") "" = some ⟨⟨2024, 3, 5⟩, ⟨0, 0⟩⟩ ∧
    (∃ e, processRow (mkRow "" "D" "" "05-03-2024" "abc" "") = some e ∧
      e.dtstart = DtStart.timed ⟨⟨2024, 3, 5⟩, ⟨0, 0⟩⟩ "America/Montreal" ∧
      e.duration = some 1 ∧
      (∀ d, e.dtstart ≠ DtStart.allday d)) :=
  ⟨by decide,
   C4_unparsed_time_timed_midnight "" "D" "" "05-03-2024" "abc" ""
     ⟨⟨2024, 3, 5⟩, ⟨0, 0⟩⟩ (by decide) (by decide) (by decide) (by decide)⟩

/-! ### Claim C9 -/

instance : IsTotal DayActivity actR where
  total := by
    intro a b
    unfold actR actLe
    rcases ha : a.time with _ | t1 <;> rcases hb : b.time with _ | t2 <;> simp_all
    omega

instance : IsTrans DayActivity actR where
  trans := by
    intro a b c hab hbc
    unfold actR actLe at hab hbc ⊢
    rcases ha : a.time with _ | t1 <;> rcases hb : b.time with _ | t2 <;>
      rcases hc : c.time with _ | t3 <;> simp_all
    omega

/-- Activities with the same sort key are related both ways by the sort
ordering. -/
theorem actR_of_sortKey_eq {a b : DayActivity} (h : sortKey a = sortKey b) :
    actR a b := by
  unfold sortKey at h
  unfold actR actLe
  cases ha : a.time <;> cases hb : b.time <;> rw [ha, hb] at h <;> simp_all

/-- **C9.**  The day-grouping sort permutes the activities; its output is
ordered by the sort relation (timed ascending by time of day, all
untimed activities after every timed one); it is stable — for every key,
the subsequence of activities with that key is exactly the same, in the
same order, as in the input; and on the concrete example the times
`[None, 09:00, 08:00]` come out as `[08:00, 09:00, None]`. -/
theorem C9_day_sort :
    (∀ l : List DayActivity,
       List.Perm (sortDay l) l ∧
       List.Pairwise actR (sortDay l) ∧
       List.Pairwise (fun a b => a.time = none → b.time = none) (sortDay l) ∧
       (∀ k : Bool × Nat,
         (sortDay l).filter (fun a => decide (sortKey a = k)) =
           l.filter (fun a => decide (sortKey a = k)))) ∧
    sortDay [actExNone, actExNine, actExEight] = [actExEight, actExNine, actExNone] := by
  constructor
  · intro l
    have hpw : List.Pairwise actR (sortDay l) := List.sorted_insertionSort actR l
    refine ⟨List.perm_insertionSort actR l, hpw, ?_, ?_⟩
    · refine hpw.imp ?_
      intro a b hab hna
      unfold actR actLe at hab
      rw [hna] at hab
      cases hb : b.time
      · rfl
      · rw [hb] at hab; exact absurd hab (by simp)
    · intro k
      set p : DayActivity → Bool := fun a => decide (sortKey a = k) with hp
      have hsub : List.Sublist (l.filter p) (List.insertionSort actR l) := by
        apply List.sublist_insertionSort
        · apply List.pairwise_of_forall_mem_list
          intro a ha b hb
          have hak : sortKey a = k := by
            have := (List.mem_filter.mp ha).2
            simpa [hp] using this
          have hbk : sortKey b = k := by
            have := (List.mem_filter.mp hb).2
            simpa [hp] using this
          exact actR_of_sortKey_eq (hak.trans hbk.symm)
        · exact List.filter_sublist l
      have hsub2 : List.Sublist (l.filter p) ((List.insertionSort actR l).filter p) := by
        have h2 := hsub.filter p
        rwa [List.filter_eq_self.mpr (fun a ha => (List.mem_filter.mp ha).2)] at h2
      have hperm : List.Perm ((List.insertionSort actR l).filter p) (l.filter p) :=
        List.Perm.filter p (List.perm_insertionSort actR l)
      exact (hsub2.eq_of_length hperm.length_eq.symm).symm
  · decide

/-! ### Claim C6 -/

/-- The spec-side splitter always yields at least one segment. -/
theorem specSegs_ne_nil : ∀ (l : List Char) (b : Bool), specSegs l b ≠ [] := by
  intro l
  induction l with
  | nil => intro b; simp [specSegs]
  | cons c rest ih =>
    intro b
    unfold specSegs
    by_cases h1 : c = '"'
    · rw [if_pos h1]; exact ih (!b)
    · rw [if_neg h1]
      by_cases h2 : (c = ';' && !b) = true
      · rw [if_pos h2]; simp
      · rw [if_neg h2]
        cases hs : specSegs rest b with
        | nil => simp
        | cons s ss => simp

/-- Finishing a segment list with one more leading segment: the new
segment always becomes a field (it is never the trailing segment). -/
theorem finalizeSegs_cons (cur : List Char) (segs : List (List Char)) (h : segs ≠ []) :
    finalizeSegs (cur :: segs) =
      clean_html (stripSpaceQuote (String.mk cur)) :: finalizeSegs segs := by
  cases segs with
  | nil => exact absurd rfl h
  | cons s ss =>
    unfold finalizeSegs
    rw [List.getLast?_cons_cons]
    by_cases hl : (s :: ss).getLast? = some []
    · rw [if_pos hl, if_pos hl, List.dropLast_cons₂, List.map_cons]
    · rw [if_neg hl, if_neg hl, List.map_cons]

/-- The accumulator fold of the source equals the spec-side splitter
with the pending accumulator glued onto the first segment. -/
theorem splitFieldsAux_spec :
    ∀ (l : List Char) (inq : Bool) (fields : List String) (cur : List Char),
      splitFieldsAux l fields cur inq =
        fields ++ finalizeSegs (consHead cur (specSegs l inq)) := by
  intro l
  induction l with
  | nil =>
    intro inq fields cur
    show (if cur ≠ [] then fields ++ [clean_html (stripSpaceQuote (String.mk cur))]
          else fields) = _
    have hspec : specSegs [] inq = [[]] := rfl
    rw [hspec]
    show _ = fields ++ finalizeSegs [cur ++ []]
    rw [List.append_nil]
    by_cases hc : cur = []
    · subst hc
      rw [if_neg (by simp)]
      show fields = fields ++ finalizeSegs [[]]
      simp [finalizeSegs]
    · rw [if_pos (by simpa using hc)]
      show _ = fields ++ finalizeSegs [cur]
      unfold finalizeSegs
      rw [if_neg (by simpa using hc)]
      simp
  | cons c rest ih =>
    intro inq fields cur
    have hstep : specSegs (c :: rest) inq =
        (if c = '"' then specSegs rest (!inq)
         else if c = ';' && !inq then [] :: specSegs rest inq
         else match specSegs rest inq with
              | s :: ss => (c :: s) :: ss
              | [] => [[c]]) := rfl
    show (if c = '"' then splitFieldsAux rest fields cur (!inq)
          else if c = ';' && !inq then
            splitFieldsAux rest (fields ++ [clean_html (stripSpaceQuote (String.mk cur))]) [] inq
          else splitFieldsAux rest fields (cur ++ [c]) inq) = _
    by_cases h1 : c = '"'
    · rw [if_pos h1, ih, hstep, if_pos h1]
    · rw [if_neg h1]
      by_cases h2 : (c = ';' && !inq) = true
      · rw [if_pos h2, ih, hstep, if_neg h1, if_pos h2]
        obtain ⟨s, ss, hs⟩ : ∃ s ss, specSegs rest inq = s :: ss := by
          cases hx : specSegs rest inq with
          | nil => exact absurd hx (specSegs_ne_nil rest inq)
          | cons s ss => exact ⟨s, ss, rfl⟩
        rw [hs]
        show fields ++ [clean_html (stripSpaceQuote (String.mk cur))] ++
            finalizeSegs (([] ++ s) :: ss) =
          fields ++ finalizeSegs ((cur ++ []) :: s :: ss)
        rw [List.nil_append, List.append_nil,
          finalizeSegs_cons cur (s :: ss) (by simp), List.append_assoc]
        rfl
      · rw [if_neg h2, ih, hstep, if_neg h1, if_neg h2]
        obtain ⟨s, ss, hs⟩ : ∃ s ss, specSegs rest inq = s :: ss := by
          cases hx : specSegs rest inq with
          | nil => exact absurd hx (specSegs_ne_nil rest inq)
          | cons s ss => exact ⟨s, ss, rfl⟩
        rw [hs]
        show fields ++ finalizeSegs ((cur ++ [c] ++ s) :: ss) =
          fields ++ finalizeSegs ((cur ++ (c :: s)) :: ss)
        rw [List.append_assoc]
        rfl

/-- **C6.**  The field splitting of a logical-row line is exactly the
spec-side description: toggle an inside-quotes flag on each quote
character, cut fields at semicolons seen outside quotes (quote characters
never enter a field), drop a trailing empty segment, and trim and clean
each field. -/
theorem C6_field_splitting : ∀ line : String, splitFields line = specFields line := by
  intro line
  unfold splitFields specFields
  rw [splitFieldsAux_spec]
  obtain ⟨s, ss, hs⟩ : ∃ s ss, specSegs line.data false = s :: ss := by
    cases hx : specSegs line.data false with
    | nil => exact absurd hx (specSegs_ne_nil line.data false)
    | cons s ss => exact ⟨s, ss, rfl⟩
  rw [hs]
  show [] ++ finalizeSegs (([] ++ s) :: ss) = finalizeSegs (s :: ss)
  rw [List.nil_append, List.nil_append]

/-! ### Claim C7 -/

/-- Membership and `contains` agree for character lists. -/
theorem contains_iff_mem (l : List Char) (a : Char) : l.contains a = true ↔ a ∈ l :=
  List.elem_iff

/-- A positive skip argument of `subBlankAux` drops that many characters
before scanning resumes. -/
theorem subBlankAux_skip : ∀ (l : List Char) (k : Nat),
    subBlankAux l k = subBlank (l.drop k) := by
  intro l
  induction l with
  | nil => intro k; cases k <;> rfl
  | cons c rest ih =>
    intro k
    cases k with
    | zero => rfl
    | succ k =>
      show subBlankAux rest k = subBlank ((c :: rest).drop (k + 1))
      rw [List.drop_succ_cons]
      exact ih k

/-- The blank-run substitution passes over a character other than a
newline. -/
theorem subBlank_cons_ne (c : Char) (rest : List Char) (hc : ¬ c = '\n') :
    subBlank (c :: rest) = c :: subBlank rest := by
  show subBlankAux (c :: rest) 0 = c :: subBlankAux rest 0
  rw [subBlankAux]
  rw [if_neg hc]

/-- The blank-run substitution keeps a newline whose following whitespace
run has no further newline. -/
theorem subBlank_cons_nl_clean (rest : List Char)
    (h : ¬ '\n' ∈ rest.takeWhile isPySpace) :
    subBlank ('\n' :: rest) = '\n' :: subBlank rest := by
  show subBlankAux ('\n' :: rest) 0 = '\n' :: subBlankAux rest 0
  rw [subBlankAux]
  rw [if_pos rfl]
  have hcf : (rest.takeWhile isPySpace).contains '\n' = false := by
    rw [Bool.eq_false_iff]
    intro hco
    exact h ((contains_iff_mem _ _).mp hco)
  simp only [hcf]
  rw [if_neg (by simp)]

/-- The blank-run substitution at a newline whose whitespace run holds
another newline: the match is replaced by one newline and scanning
resumes after the last newline of the run (`w2` is the whitespace after
that last newline, and the remainder of the line follows it). -/
theorem subBlank_cons_nl_blank (rest : List Char)
    (h : '\n' ∈ rest.takeWhile isPySpace) :
    subBlank ('\n' :: rest) =
      '\n' :: subBlank
        (((rest.takeWhile isPySpace).reverse.takeWhile (fun d => !(d = '\n'))).reverse ++
          rest.dropWhile isPySpace) := by
  show subBlankAux ('\n' :: rest) 0 = _
  rw [subBlankAux]
  rw [if_pos rfl]
  have hct : (rest.takeWhile isPySpace).contains '\n' = true :=
    (contains_iff_mem _ _).mpr h
  simp only [hct]
  rw [if_pos trivial]
  rw [subBlankAux_skip]
  have hsuffix := List.rtakeWhile_suffix (p := fun d => !(d = '\n'))
    (l := rest.takeWhile isPySpace)
  obtain ⟨u, hu⟩ := hsuffix
  have hw2 : List.rtakeWhile (fun d => !(d = '\n')) (rest.takeWhile isPySpace) =
      ((rest.takeWhile isPySpace).reverse.takeWhile (fun d => !(d = '\n'))).reverse := rfl
  rw [hw2] at hu
  have hdrop : rest.drop
      ((rest.takeWhile isPySpace).length -
        ((rest.takeWhile isPySpace).reverse.takeWhile (fun d => !(d = '\n'))).reverse.length) =
      ((rest.takeWhile isPySpace).reverse.takeWhile (fun d => !(d = '\n'))).reverse ++
        rest.dropWhile isPySpace := by
    have hlen2 : u.length +
        ((rest.takeWhile isPySpace).reverse.takeWhile (fun d => !(d = '\n'))).reverse.length =
        (rest.takeWhile isPySpace).length := by
      have := congrArg List.length hu
      simpa [List.length_append] using this
    have hlen : (rest.takeWhile isPySpace).length -
        ((rest.takeWhile isPySpace).reverse.takeWhile (fun d => !(d = '\n'))).reverse.length =
        u.length := by
      omega
    rw [hlen]
    conv_lhs => rw [← List.takeWhile_append_dropWhile isPySpace rest, ← hu,
      List.append_assoc]
    rw [List.drop_left]
  rw [hdrop]

/-- The blank-run substitution maps characters other than newlines
through untouched. -/
theorem subBlank_append_no_nl : ∀ (u m : List Char), (∀ c ∈ u, ¬ c = '\n') →
    subBlank (u ++ m) = u ++ subBlank m := by
  intro u
  induction u with
  | nil => intro m _; rfl
  | cons c t ih =>
    intro m hu
    rw [List.cons_append, subBlank_cons_ne c _ (hu c (by simp)), ih m
      (fun d hd => hu d (by simp [hd]))]
    rfl

/-- `takeWhile` over an append whose first part satisfies the predicate
throughout. -/
theorem takeWhile_append_all (p : Char → Bool) :
    ∀ (u v : List Char), (∀ c ∈ u, p c = true) →
      (u ++ v).takeWhile p = u ++ v.takeWhile p := by
  intro u
  induction u with
  | nil => intro v _; rfl
  | cons c t ih =>
    intro v hu
    rw [List.cons_append, List.takeWhile_cons_of_pos (hu c (by simp)), ih v
      (fun d hd => hu d (by simp [hd]))]
    rfl

/-- Unfolding equation of `hasBlank` on a cons cell. -/
theorem hasBlank_cons (c : Char) (r : List Char) :
    hasBlank (c :: r) = (startsBlank (c :: r) || hasBlank r) := rfl

/-- Unfolding equation of `startsBlank` on a cons cell. -/
theorem startsBlank_cons (c : Char) (r : List Char) :
    startsBlank (c :: r) =
      (decide (c = '\n') && (r.takeWhile isPySpace).contains '\n') := rfl

/-- If the whitespace run at the head of `l` has no newline, neither has
the whitespace run at the head of `subBlank l`. -/
theorem takeWhile_subBlank_no_nl (l : List Char)
    (h : ¬ '\n' ∈ l.takeWhile isPySpace) :
    ¬ '\n' ∈ (subBlank l).takeWhile isPySpace := by
  have hdecomp : l = l.takeWhile isPySpace ++ l.dropWhile isPySpace :=
    (List.takeWhile_append_dropWhile isPySpace l).symm
  have hwall : ∀ c ∈ l.takeWhile isPySpace, isPySpace c = true :=
    fun c hc => List.mem_takeWhile_imp hc
  have hwnn : ∀ c ∈ l.takeWhile isPySpace, ¬ c = '\n' := by
    intro c hc hceq
    exact h (hceq ▸ hc)
  have hsb : subBlank l = l.takeWhile isPySpace ++ subBlank (l.dropWhile isPySpace) := by
    conv_lhs => rw [hdecomp]
    exact subBlank_append_no_nl _ _ hwnn
  rw [hsb, takeWhile_append_all isPySpace _ _ hwall]
  have hm : (subBlank (l.dropWhile isPySpace)).takeWhile isPySpace = [] := by
    cases hmv : l.dropWhile isPySpace with
    | nil => rfl
    | cons d t =>
      have hd : isPySpace d = false := dropWhile_head_false isPySpace l d t hmv
      have hdn : ¬ d = '\n' := by
        intro hdeq
        rw [hdeq] at hd
        exact absurd hd (by decide)
      rw [subBlank_cons_ne d t hdn, List.takeWhile_cons_of_neg (by simp [hd])]
  rw [hm, List.append_nil]
  exact h

/-- The whitespace run at the head of the resume point of a blank-run
match has no newline (it consists of the tail of the matched run and is
followed by a non-whitespace character or the end). -/
theorem takeWhile_w2_append_no_nl (rest : List Char) :
    ¬ '\n' ∈ ((((rest.takeWhile isPySpace).reverse.takeWhile (fun d => !(d = '\n'))).reverse ++
        rest.dropWhile isPySpace)).takeWhile isPySpace := by
  have hw2space : ∀ c ∈ ((rest.takeWhile isPySpace).reverse.takeWhile
      (fun d => !(d = '\n'))).reverse, isPySpace c = true := by
    intro c hc
    rw [List.mem_reverse] at hc
    have hcw : c ∈ (rest.takeWhile isPySpace).reverse := (List.takeWhile_sublist _).subset hc
    rw [List.mem_reverse] at hcw
    exact List.mem_takeWhile_imp hcw
  have hw2nn : ∀ c ∈ ((rest.takeWhile isPySpace).reverse.takeWhile
      (fun d => !(d = '\n'))).reverse, ¬ c = '\n' := by
    intro c hc
    rw [List.mem_reverse] at hc
    have := List.mem_takeWhile_imp hc
    simpa using this
  rw [takeWhile_append_all isPySpace _ _ hw2space]
  intro hmem
  rcases List.mem_append.mp hmem with hc | hc
  · exact hw2nn _ hc rfl
  · cases hmv : rest.dropWhile isPySpace with
    | nil => rw [hmv] at hc; simp at hc
    | cons d t =>
      rw [hmv] at hc
      have hd : isPySpace d = false := dropWhile_head_false isPySpace rest d t hmv
      rw [List.takeWhile_cons_of_neg (by simp [hd])] at hc
      simp at hc

/-- No blank run survives the blank-run substitution (by strong
induction on the length). -/
theorem hasBlank_subBlank_aux :
    ∀ (n : Nat) (l : List Char), l.length ≤ n → hasBlank (subBlank l) = false := by
  intro n
  induction n with
  | zero =>
    intro l hl
    have h0 : l = [] := List.eq_nil_of_length_eq_zero (Nat.le_zero.mp hl)
    subst h0
    rfl
  | succ n ih =>
    intro l hl
    cases l with
    | nil => rfl
    | cons c rest =>
      have hrest : rest.length ≤ n := by
        rw [List.length_cons] at hl
        omega
      by_cases hc : c = '\n'
      · subst hc
        by_cases hw : '\n' ∈ rest.takeWhile isPySpace
        · rw [subBlank_cons_nl_blank rest hw, hasBlank_cons, startsBlank_cons]
          have hno := takeWhile_subBlank_no_nl _ (takeWhile_w2_append_no_nl rest)
          have hcf : ((subBlank
              ((((rest.takeWhile isPySpace).reverse.takeWhile
                  (fun d => !(d = '\n'))).reverse ++
                rest.dropWhile isPySpace))).takeWhile isPySpace).contains '\n' = false := by
            rw [Bool.eq_false_iff]
            intro hx
            exact hno ((contains_iff_mem _ _).mp hx)
          rw [hcf]
          have hlen : ((((rest.takeWhile isPySpace).reverse.takeWhile
              (fun d => !(d = '\n'))).reverse ++ rest.dropWhile isPySpace)).length ≤ n := by
            obtain ⟨u, hu⟩ := List.rtakeWhile_suffix (p := fun d => !(d = '\n'))
              (l := rest.takeWhile isPySpace)
            have h1 := congrArg List.length hu
            have h2 := congrArg List.length (List.takeWhile_append_dropWhile isPySpace rest)
            have hw2eq : List.rtakeWhile (fun d => !(d = '\n')) (rest.takeWhile isPySpace) =
                ((rest.takeWhile isPySpace).reverse.takeWhile
                  (fun d => !(d = '\n'))).reverse := rfl
            rw [hw2eq] at h1
            simp only [List.length_append] at h1 h2 ⊢
            omega
          rw [ih _ hlen]
          simp
        · rw [subBlank_cons_nl_clean rest hw, hasBlank_cons, startsBlank_cons]
          have hno := takeWhile_subBlank_no_nl rest hw
          have hcf : ((subBlank rest).takeWhile isPySpace).contains '\n' = false := by
            rw [Bool.eq_false_iff]
            intro hx
            exact hno ((contains_iff_mem _ _).mp hx)
          rw [hcf, ih rest hrest]
          simp
      · rw [subBlank_cons_ne c rest hc, hasBlank_cons, startsBlank_cons, ih rest hrest]
        simp [hc]

/-- Membership in a `takeWhile` is preserved when the list is extended
on the right. -/
theorem mem_takeWhile_append_left (p : Char → Bool) (a : Char) :
    ∀ (r e : List Char), a ∈ r.takeWhile p → a ∈ (r ++ e).takeWhile p := by
  intro r
  induction r with
  | nil => intro e h; simp at h
  | cons c t ih =>
    intro e h
    by_cases hc : p c = true
    · rw [List.takeWhile_cons_of_pos hc] at h
      rw [List.cons_append, List.takeWhile_cons_of_pos hc]
      rcases List.mem_cons.mp h with h1 | h1
      · exact List.mem_cons.mpr (Or.inl h1)
      · exact List.mem_cons.mpr (Or.inr (ih e h1))
    · rw [List.takeWhile_cons_of_neg hc] at h
      simp at h

/-- A blank run in a list survives extending the list on the right. -/
theorem hasBlank_append_right : ∀ (x e : List Char),
    hasBlank x = true → hasBlank (x ++ e) = true := by
  intro x
  induction x with
  | nil => intro e h; exact absurd h (by simp [hasBlank])
  | cons c r ih =>
    intro e h
    rw [hasBlank_cons] at h
    rw [List.cons_append, hasBlank_cons]
    rcases Bool.or_eq_true_iff.mp h with hs | hr
    · rw [startsBlank_cons] at hs
      rcases Bool.and_eq_true_iff.mp hs with ⟨hs1, hs2⟩
      have hmem := (contains_iff_mem _ _).mp hs2
      have hmem2 := mem_takeWhile_append_left isPySpace _ r e hmem
      rw [startsBlank_cons]
      have : (decide (c = '\n') && ((r ++ e).takeWhile isPySpace).contains '\n') = true :=
        Bool.and_eq_true_iff.mpr ⟨hs1, (contains_iff_mem _ _).mpr hmem2⟩
      rw [this]
      rfl
    · rw [ih e hr]
      simp
  
/-- The tail of a blank-run-free list is blank-run-free. -/
theorem hasBlank_tail (c : Char) (r : List Char) (h : hasBlank (c :: r) = false) :
    hasBlank r = false := by
  rw [hasBlank_cons] at h
  exact (Bool.or_eq_false_iff.mp h).2

/-- Dropping a prefix preserves blank-run-freedom. -/
theorem hasBlank_dropWhile_false (p : Char → Bool) :
    ∀ l : List Char, hasBlank l = false → hasBlank (l.dropWhile p) = false := by
  intro l
  induction l with
  | nil => intro h; exact h
  | cons c r ih =>
    intro h
    rw [List.dropWhile_cons]
    by_cases hc : p c = true
    · rw [if_pos hc]
      exact ih (hasBlank_tail c r h)
    · rw [if_neg hc]
      exact h

/-- Dropping a suffix preserves blank-run-freedom. -/
theorem hasBlank_dropEnd_false (p : Char → Bool) (l : List Char)
    (h : hasBlank l = false) : hasBlank (dropEndWhile p l) = false := by
  have hdec : l = dropEndWhile p l ++ (l.reverse.takeWhile p).reverse := by
    conv_lhs => rw [← List.reverse_reverse l,
      ← List.takeWhile_append_dropWhile p l.reverse, List.reverse_append]
    rfl
  cases hx : hasBlank (dropEndWhile p l) with
  | false => rfl
  | true =>
    exfalso
    have h2 := hasBlank_append_right _ ((l.reverse.takeWhile p).reverse) hx
    rw [← hdec] at h2
    exact absurd h2 (by simp [h])

/-- Stripping both ends preserves blank-run-freedom. -/
theorem hasBlank_stripEnds_false (p : Char → Bool) (l : List Char)
    (h : hasBlank l = false) : hasBlank (stripEnds p l) = false :=
  hasBlank_dropEnd_false p _ (hasBlank_dropWhile_false p l h)

/-- `dropWhile` commutes with appending a failing element on the right. -/
theorem dropWhile_append_last (p : Char → Bool) (c : Char) (hc : p c = false) :
    ∀ A : List Char, (A ++ [c]).dropWhile p = A.dropWhile p ++ [c] := by
  intro A
  induction A with
  | nil => simp [List.dropWhile_cons, hc]
  | cons a t ih =>
    rw [List.cons_append, List.dropWhile_cons, List.dropWhile_cons]
    by_cases ha : p a = true
    · rw [if_pos ha, if_pos ha]
      exact ih
    · rw [if_neg ha, if_neg ha, List.cons_append]

/-- Dropping a trailing run keeps a failing head in place. -/
theorem dropEnd_cons_of_neg (p : Char → Bool) (c : Char) (t : List Char) (hc : p c = false) :
    dropEndWhile p (c :: t) = c :: dropEndWhile p t := by
  unfold dropEndWhile
  rw [List.reverse_cons, dropWhile_append_last p c hc, List.reverse_append]
  rfl

/-- Stripping both ends is idempotent. -/
theorem stripEnds_idem (p : Char → Bool) (l : List Char) :
    stripEnds p (stripEnds p l) = stripEnds p l := by
  unfold stripEnds
  cases hy : l.dropWhile p with
  | nil => simp [dropEndWhile]
  | cons c t =>
    have hc : p c = false := dropWhile_head_false p l c t hy
    rw [dropEnd_cons_of_neg p c t hc, List.dropWhile_cons, if_neg (by simp [hc]),
      dropEnd_cons_of_neg p c _ hc]
    congr 1
    unfold dropEndWhile
    rw [List.reverse_reverse, List.dropWhile_idempotent]

/-- Python strip is idempotent. -/
theorem pyStrip_idem (s : String) : pyStrip (pyStrip s) = pyStrip s := by
  unfold pyStrip
  rw [show (String.mk (stripEnds isPySpace s.data)).data = stripEnds isPySpace s.data from rfl,
    stripEnds_idem]

/-- The final two stages of `clean_html` (blank-run collapse and strip)
leave no blank run and a fully stripped result, whatever came before. -/
theorem clean_html_final_steps (x : List Char) :
    hasBlank (pyStrip (String.mk (subBlank x))).data = false ∧
    pyStrip (pyStrip (String.mk (subBlank x))) = pyStrip (String.mk (subBlank x)) := by
  constructor
  · show hasBlank (stripEnds isPySpace (subBlank x)) = false
    exact hasBlank_stripEnds_false _ _ (hasBlank_subBlank_aux x.length x (Nat.le_refl _))
  · exact pyStrip_idem _

/-! The claim C7 theorem. -/

/-- **C7.**  `clean_html` is a total pure function by construction; the
paragraph example cleans to the two lines joined by one newline; empty
and absent input give the empty string; and for every input the result
contains no blank run (no two newlines separated only by whitespace —
the collapse of the blank-line substitution) and is exactly stripped of
leading and trailing whitespace. -/
theorem C7_clean_html :
    clean_html "<p>A</p><p>B</p>" = "A\nB" ∧
    clean_html "" = "" ∧
    cleanHtmlOpt none = "" ∧
    ∀ text : String, hasBlank (clean_html text).data = false ∧
      pyStrip (clean_html text) = clean_html text := by
  refine ⟨by decide, by decide, by decide, ?_⟩
  intro text
  by_cases h0 : text = ""
  · subst h0
    exact ⟨by decide, by decide⟩
  · unfold clean_html
    rw [if_neg h0]
    dsimp only
    exact clean_html_final_steps _

end ACM
